import Mathlib

/-!
Verification of the decoding core of the Alphabet Alchemist service
(`MeasurementConverter` in `src/main.py`).

The embedding follows the Python source closely:

* `val`            — `MeasurementConverter._val`
* `zloop`          — the `while i < len(s) and s[i] == 'z'` accumulation loop
                     inside `_parse_element`
* `parseElement`   — `MeasurementConverter._parse_element`
* `readValues`     — the inner `while read < count and i < n` loop of `convert`
* `convertLoop`    — the outer `while i < n` loop of `convert`
* `pyLower`, `isSpaceChar`, `pyStrip` — the `s.strip().lower()` normalization
                     (modelled on the ASCII range, which covers the intended
                     alphabet `{a-z, _}` plus surrounding whitespace)
* `convert`        — `MeasurementConverter.convert`

Strings are modelled as `List Char`, the cursor as a `Nat` index, and element
values as `Int` (Python integers are unbounded and may go negative on
out-of-alphabet input).
-/

/-- `MeasurementConverter._val`: `0` for the sentinel, otherwise
`ord(ch) - ord('a') + 1`. -/
def val (ch : Char) : Int :=
  if ch = '_' then 0 else (ch.toNat : Int) - ('a'.toNat : Int) + 1

/-- The z-accumulation loop of `_parse_element`:
`while i < len(s) and s[i] == 'z': total += 26; i += 1`. -/
def zloop (s : List Char) (total : Int) (i : Nat) : Int × Nat :=
  if h : i < s.length then
    if s.get ⟨i, h⟩ = 'z' then zloop s (total + 26) (i + 1) else (total, i)
  else (total, i)
termination_by s.length - i

/-- `MeasurementConverter._parse_element`: parse one element at cursor `i`,
handling the z-rule, returning the value and the new cursor. -/
def parseElement (s : List Char) (i : Nat) : Int × Nat :=
  if h : i < s.length then
    if s.get ⟨i, h⟩ ≠ 'z' then (val (s.get ⟨i, h⟩), i + 1)
    else
      let p := zloop s 0 i
      if h2 : p.2 < s.length then (p.1 + val (s.get ⟨p.2, h2⟩), p.2 + 1)
      else p
  else (0, i)

/-- The inner value-reading loop of `convert`:
`while read < count and i < n: val, i = parse_element(s, i); sum += val`.
`remaining` counts how many reads are still allowed. -/
def readValues (s : List Char) (remaining : Nat) (i : Nat) : Int × Nat :=
  match remaining with
  | 0 => (0, i)
  | r + 1 =>
    if i < s.length then
      let e := parseElement s i
      let rest := readValues s r e.2
      (e.1 + rest.1, rest.2)
    else (0, i)

/-- The cursor returned by `zloop` is at least the starting cursor. -/
theorem zloop_le (s : List Char) (total : Int) (i : Nat) :
    i ≤ (zloop s total i).2 := by
  rw [zloop]
  split
  · split
    · have := zloop_le s (total + 26) (i + 1)
      omega
    · simp
  · simp
termination_by s.length - i

/-- The cursor returned by `zloop` never exceeds the stream length, provided
the starting cursor does not. -/
theorem zloop_le_length (s : List Char) (total : Int) (i : Nat)
    (hi : i ≤ s.length) : (zloop s total i).2 ≤ s.length := by
  rw [zloop]
  split
  · split
    · exact zloop_le_length s (total + 26) (i + 1) (by omega)
    · simpa using hi
  · simpa using hi
termination_by s.length - i

/-- The cursor returned by `parseElement` is at least the starting cursor. -/
theorem parseElement_le (s : List Char) (i : Nat) :
    i ≤ (parseElement s i).2 := by
  rw [parseElement]
  split
  · split
    · simp
    · have h1 := zloop_le s 0 i
      dsimp only
      split
      · simp only
        omega
      · exact h1
  · simp

/-- The cursor returned by `parseElement` never exceeds the stream length,
provided the starting cursor does not. -/
theorem parseElement_le_length (s : List Char) (i : Nat)
    (hi : i ≤ s.length) : (parseElement s i).2 ≤ s.length := by
  rw [parseElement]
  split
  · split
    · simpa using ‹i < s.length›
    · have h1 := zloop_le_length s 0 i hi
      dsimp only
      split
      · simp only
        omega
      · exact h1
  · simpa using hi

/-- When the cursor is strictly inside the stream, `parseElement` strictly
advances it. -/
theorem parseElement_lt (s : List Char) (i : Nat) (h : i < s.length) :
    i < (parseElement s i).2 := by
  rw [parseElement]
  rw [dif_pos h]
  split
  · simp
  · have h1 : i + 1 ≤ (zloop s 0 i).2 := by
      rw [zloop, dif_pos h, if_pos (by simpa using ‹¬s.get ⟨i, h⟩ ≠ 'z'›)]
      exact zloop_le s 26 (i + 1)
    dsimp only
    split
    · simp only
      omega
    · omega

/-- The cursor returned by `readValues` is at least the starting cursor. -/
theorem readValues_le (s : List Char) (remaining i : Nat) :
    i ≤ (readValues s remaining i).2 := by
  induction remaining generalizing i with
  | zero => simp [readValues]
  | succ r ih =>
    rw [readValues]
    split
    · have h1 := parseElement_le s i
      have h2 := ih (parseElement s i).2
      dsimp only
      omega
    · simp

/-- The cursor returned by `readValues` never exceeds the stream length,
provided the starting cursor does not. -/
theorem readValues_le_length (s : List Char) (remaining i : Nat)
    (hi : i ≤ s.length) : (readValues s remaining i).2 ≤ s.length := by
  induction remaining generalizing i with
  | zero => simpa [readValues] using hi
  | succ r ih =>
    rw [readValues]
    split
    · have h1 := parseElement_le_length s i hi
      exact ih (parseElement s i).2 h1
    · simpa using hi

/-- The outer `while i < n` loop of `MeasurementConverter.convert`, acting on
the already-normalized stream. -/
def convertLoop (s : List Char) (i : Nat) : List Int :=
  if h : i < s.length then
    if s.get ⟨i, h⟩ = '_' then 0 :: convertLoop s (i + 1)
    else
      let p := parseElement s i
      if p.1 = 0 then 0 :: convertLoop s p.2
      else
        let q := readValues s p.1.toNat p.2
        q.1 :: convertLoop s q.2
  else []
termination_by s.length - i
decreasing_by
  · omega
  · have := parseElement_lt s i h
    omega
  · have h1 := parseElement_lt s i h
    have h2 := readValues_le s (parseElement s i).1.toNat (parseElement s i).2
    have h3 := readValues_le_length s (parseElement s i).1.toNat
      (parseElement s i).2 (parseElement_le_length s i (by omega))
    omega

/-- Characters Python's `str.strip` removes at the ends (ASCII whitespace). -/
def isSpaceChar (c : Char) : Bool :=
  c = ' ' || c = '\t' || c = '\n' || c = '\x0d' || c = '\x0b' || c = '\x0c'

/-- `str.strip()` on the ASCII range: drop whitespace from both ends. -/
def pyStrip (l : List Char) : List Char :=
  ((l.dropWhile isSpaceChar).reverse.dropWhile isSpaceChar).reverse

/-- `str.lower()` on the ASCII range: map `A-Z` to `a-z`, leave the rest. -/
def pyLower (c : Char) : Char :=
  if 'A' ≤ c ∧ c ≤ 'Z' then Char.ofNat (c.toNat + 32) else c

/-- `str.upper()` on the ASCII range: map `a-z` to `A-Z`, leave the rest. -/
def pyUpper (c : Char) : Char :=
  if 'a' ≤ c ∧ c ≤ 'z' then Char.ofNat (c.toNat - 32) else c

/-- `MeasurementConverter.convert`: normalize with `strip().lower()`, then run
the decoding loop from cursor `0`. -/
def convert (s : List Char) : List Int :=
  convertLoop ((pyStrip s).map pyLower) 0

/-- A character of the intended alphabet: a lowercase letter or the sentinel. -/
def okChar (c : Char) : Bool :=
  ('a' ≤ c && c ≤ 'z') || c = '_'

/-- Length of the maximal consecutive run of `'z'` starting at cursor `i`. -/
def zrunLen (s : List Char) (i : Nat) : Nat :=
  ((s.drop i).takeWhile (fun c => c = 'z')).length

/-- Spec §4.1 rule 3: the 1-based alphabet position of a letter. -/
def letterPos (c : Char) : Int :=
  (c.toNat : Int) - ('a'.toNat : Int) + 1

/-- Spec §4.1 rules 2-3 combined: the simple value of one character
(sentinel yields 0, a letter yields its 1-based position). -/
def simpleVal (c : Char) : Int :=
  if c = '_' then 0 else letterPos c

/-- The element scanner as described in spec §4.1, rule by rule:
exhausted input (rule 1), sentinel (rule 2), plain letter (rule 3),
and z-run mode with at most one trailing simple character (rule 4). -/
def specScan (s : List Char) (i : Nat) : Int × Nat :=
  if s.length ≤ i then (0, i)
  else
    let c := s.getD i 'a'
    if c = '_' then (0, i + 1)
    else if c ≠ 'z' then (letterPos c, i + 1)
    else
      let r := zrunLen s i
      if i + r < s.length then
        (26 * r + simpleVal (s.getD (i + r) 'a'), i + r + 1)
      else (26 * r, i + r)

/-- Past the end of the stream there is no z-run. -/
theorem zrunLen_of_le (s : List Char) (i : Nat) (h : s.length ≤ i) :
    zrunLen s i = 0 := by
  unfold zrunLen
  rw [List.drop_eq_nil_of_le h]
  simp

/-- At a non-`'z'` character the z-run is empty. -/
theorem zrunLen_eq_zero (s : List Char) (i : Nat) (h : i < s.length)
    (hz : s.get ⟨i, h⟩ ≠ 'z') : zrunLen s i = 0 := by
  unfold zrunLen
  rw [List.drop_eq_getElem_cons h, List.takeWhile_cons]
  simp only [List.get_eq_getElem] at hz
  simp [hz]

/-- At a `'z'` character the z-run is one longer than the run starting just
after it. -/
theorem zrunLen_succ (s : List Char) (i : Nat) (h : i < s.length)
    (hz : s.get ⟨i, h⟩ = 'z') : zrunLen s i = zrunLen s (i + 1) + 1 := by
  unfold zrunLen
  rw [List.drop_eq_getElem_cons h, List.takeWhile_cons]
  simp only [List.get_eq_getElem] at hz
  simp [hz]

/-- Closed form of the z-accumulation loop: it adds `26` per `'z'` of the
maximal run and moves the cursor just past the run. -/
theorem zloop_eq (s : List Char) (total : Int) (i : Nat) :
    zloop s total i = (total + 26 * zrunLen s i, i + zrunLen s i) := by
  rw [zloop]
  split
  case isTrue h =>
    split
    case isTrue hz =>
      rw [zloop_eq s (total + 26) (i + 1), zrunLen_succ s i h hz]
      rw [Prod.ext_iff]
      refine ⟨by push_cast; ring, by omega⟩
    case isFalse hz =>
      rw [zrunLen_eq_zero s i h hz]
      simp
  case isFalse h =>
    rw [zrunLen_of_le s i (by omega)]
    simp
termination_by s.length - i

/-- The spec's simple character value agrees with `_val`. -/
theorem simpleVal_eq_val (c : Char) : simpleVal c = val c := rfl

/-- The element scanner of spec §4.1 computes exactly `_parse_element`. -/
theorem specScan_eq_parseElement (s : List Char) (i : Nat) :
    specScan s i = parseElement s i := by
  unfold specScan parseElement
  by_cases h : i < s.length
  · rw [if_neg (by omega), dif_pos h]
    have hg : s.getD i 'a' = s.get ⟨i, h⟩ := by
      rw [List.getD_eq_getElem s 'a' h, List.get_eq_getElem]
    rw [hg]
    dsimp only
    by_cases hz : s.get ⟨i, h⟩ = 'z'
    · rw [if_neg (by rw [hz]; decide), if_neg (not_not_intro hz),
        if_neg (not_not_intro hz)]
      rw [zloop_eq]
      dsimp only
      by_cases h2 : i + zrunLen s i < s.length
      · rw [if_pos h2, dif_pos h2]
        have hg2 : s.getD (i + zrunLen s i) 'a' = s.get ⟨i + zrunLen s i, h2⟩ := by
          rw [List.getD_eq_getElem s 'a' h2, List.get_eq_getElem]
        rw [hg2, simpleVal_eq_val, Prod.ext_iff]
        refine ⟨by ring, rfl⟩
      · rw [if_neg h2, dif_neg h2]
        simp
    · by_cases hu : s.get ⟨i, h⟩ = '_'
      · rw [if_pos hu, if_pos hz, hu]
        simp [val]
      · rw [if_neg hu, if_pos hz, if_pos hz]
        simp only [List.get_eq_getElem] at hu
        simp [val, letterPos, hu]
  · rw [if_pos (by omega), dif_neg h]

/-- Spec §4.2 step 4: read up to `count` further elements, stopping early when
the stream is exhausted, and sum their values; also returns the final cursor. -/
def specGroup (s : List Char) (count : Nat) (i : Nat) : Int × Nat :=
  match count with
  | 0 => (0, i)
  | c + 1 =>
    if s.length ≤ i then (0, i)
    else
      let e := specScan s i
      let rest := specGroup s c e.2
      (e.1 + rest.1, rest.2)

/-- The spec's group-summation step computes exactly the inner value loop of
`convert`. -/
theorem specGroup_eq_readValues (s : List Char) (count i : Nat) :
    specGroup s count i = readValues s count i := by
  induction count generalizing i with
  | zero => rfl
  | succ c ih =>
    unfold specGroup readValues
    by_cases h : i < s.length
    · rw [if_neg (by omega), if_pos h]
      dsimp only
      rw [specScan_eq_parseElement, ih]
    · rw [if_pos (by omega), if_neg h]

/-- The sequence decoder as described in spec §4.2: sentinel shortcut (step 1),
count read (step 2), zero-count package (step 3), group summation (step 4). -/
def specDecode (s : List Char) (i : Nat) : List Int :=
  if h : i < s.length then
    if s.get ⟨i, h⟩ = '_' then 0 :: specDecode s (i + 1)
    else
      let c := specScan s i
      if c.1 = 0 then 0 :: specDecode s c.2
      else
        let g := specGroup s c.1.toNat c.2
        g.1 :: specDecode s g.2
  else []
termination_by s.length - i
decreasing_by
  · omega
  · rw [specScan_eq_parseElement]
    have := parseElement_lt s i h
    omega
  · rw [specGroup_eq_readValues, specScan_eq_parseElement]
    have h1 := parseElement_lt s i h
    have h2 := readValues_le s (parseElement s i).1.toNat (parseElement s i).2
    have h3 := readValues_le_length s (parseElement s i).1.toNat
      (parseElement s i).2 (parseElement_le_length s i (by omega))
    omega

/-- The decoding loop of `convert` computes exactly the sequence decoder of
spec §4.2. -/
theorem convertLoop_eq_specDecode (s : List Char) (i : Nat) :
    convertLoop s i = specDecode s i := by
  rw [convertLoop, specDecode]
  split
  case isTrue h =>
    rw [specScan_eq_parseElement]
    dsimp only
    rw [specGroup_eq_readValues]
    split
    · rw [convertLoop_eq_specDecode s (i + 1)]
    · split
      · rw [convertLoop_eq_specDecode s (parseElement s i).2]
      · rw [convertLoop_eq_specDecode s
          (readValues s (parseElement s i).1.toNat (parseElement s i).2).2]
  case isFalse h => rfl
termination_by s.length - i
decreasing_by
  all_goals
  { have h1 := parseElement_lt s i (by omega)
    have h2 := readValues_le s (parseElement s i).1.toNat (parseElement s i).2
    have h3 := readValues_le_length s (parseElement s i).1.toNat
      (parseElement s i).2 (parseElement_le_length s i (by omega))
    omega }

/-- Alphabet characters are not whitespace. -/
theorem okChar_not_space (c : Char) (h : okChar c = true) :
    isSpaceChar c = false := by
  simp only [okChar, Bool.or_eq_true, Bool.and_eq_true, decide_eq_true_eq] at h
  simp only [isSpaceChar, Bool.or_eq_false_iff, decide_eq_false_iff_not]
  rcases h with ⟨h1, _⟩ | h1
  · refine ⟨⟨⟨⟨⟨?_, ?_⟩, ?_⟩, ?_⟩, ?_⟩, ?_⟩ <;> rintro rfl <;> revert h1 <;> decide
  · subst h1
    refine ⟨⟨⟨⟨⟨by decide, by decide⟩, by decide⟩, by decide⟩, by decide⟩, by decide⟩

/-- Lowercasing leaves alphabet characters unchanged. -/
theorem pyLower_ok (c : Char) (h : okChar c = true) : pyLower c = c := by
  simp only [okChar, Bool.or_eq_true, Bool.and_eq_true, decide_eq_true_eq] at h
  unfold pyLower
  rw [if_neg]
  rintro ⟨hA, hZ⟩
  rcases h with ⟨h1, _⟩ | rfl
  · exact absurd (le_trans h1 hZ) (by decide)
  · exact absurd hZ (by decide)

/-- `dropWhile` is the identity on a list none of whose elements satisfy the
predicate. -/
theorem dropWhile_of_forall_neg (p : Char → Bool) (l : List Char)
    (h : ∀ c ∈ l, p c = false) : l.dropWhile p = l := by
  cases l with
  | nil => rfl
  | cons a t =>
    rw [List.dropWhile_cons, h a (by simp)]
    simp

/-- Stripping leaves an all-alphabet stream unchanged. -/
theorem pyStrip_ok (l : List Char) (h : ∀ c ∈ l, okChar c = true) :
    pyStrip l = l := by
  unfold pyStrip
  rw [dropWhile_of_forall_neg _ _ (fun c hc => okChar_not_space c (h c hc))]
  rw [dropWhile_of_forall_neg _ _
    (fun c hc => okChar_not_space c (h c (by simpa using hc)))]
  exact List.reverse_reverse l

/-- Mapping `pyLower` leaves an all-alphabet stream unchanged. -/
theorem map_pyLower_ok (l : List Char) (h : ∀ c ∈ l, okChar c = true) :
    l.map pyLower = l := by
  induction l with
  | nil => rfl
  | cons a t ih =>
    rw [List.map_cons, pyLower_ok a (h a (by simp)),
      ih (fun c hc => h c (by simp [hc]))]

/-- Normalization is the identity on all-alphabet streams, so `convert` is the
bare decoding loop there. -/
theorem convert_eq_convertLoop_of_ok (s : List Char)
    (h : ∀ c ∈ s, okChar c = true) : convert s = convertLoop s 0 := by
  unfold convert
  rw [pyStrip_ok s h, map_pyLower_ok s h]

/-- C1: for every input string over the alphabet `{a-z, _}`, `convert` follows
the sequence-decoder algorithm of spec §4.2: starting at cursor 0 and looping
until the cursor reaches the stream length, it appends a zero package and
advances by one at the sentinel, and otherwise scans one element as the count,
appends a zero package when the count is 0, and else sums up to `count`
further elements (stopping early at end of stream, an empty group summing
to 0) into one package, packages appearing in encounter order. -/
theorem convert_follows_decoder_spec (s : List Char)
    (h : ∀ c ∈ s, okChar c = true) : convert s = specDecode s 0 := by
  rw [convert_eq_convertLoop_of_ok s h, convertLoop_eq_specDecode]

/-- Witness for C1 at the concrete input `"zzab"`. -/
theorem convert_follows_decoder_spec_witness :
    (∀ c ∈ ['z', 'z', 'a', 'b'], okChar c = true) ∧
      convert ['z', 'z', 'a', 'b'] = specDecode ['z', 'z', 'a', 'b'] 0 :=
  ⟨by decide, convert_follows_decoder_spec ['z', 'z', 'a', 'b'] (by decide)⟩

/-- C2: for every string over `{a-z, _}` and cursor `i ≤ length`,
`_parse_element` behaves as the element scanner of spec §4.1: value 0 without
advancing at end of stream, 0 advancing by one at the sentinel, the 1-based
alphabet position advancing by one at a letter other than `'z'`, and at `'z'`
26 per `'z'` of the maximal run plus the simple value of at most one further
character, the cursor ending just past the last consumed character. -/
theorem parseElement_follows_scanner_spec (s : List Char) (i : Nat)
    (_halpha : ∀ c ∈ s, okChar c = true) (_hi : i ≤ s.length) :
    parseElement s i = specScan s i :=
  (specScan_eq_parseElement s i).symm

/-- Witness for C2 at the concrete input `"zza"`, cursor 0. -/
theorem parseElement_follows_scanner_spec_witness :
    ((∀ c ∈ ['z', 'z', 'a'], okChar c = true) ∧ 0 ≤ (['z', 'z', 'a'] : List Char).length) ∧
      parseElement ['z', 'z', 'a'] 0 = specScan ['z', 'z', 'a'] 0 :=
  ⟨⟨by decide, by decide⟩,
    parseElement_follows_scanner_spec ['z', 'z', 'a'] 0 (by decide) (by decide)⟩

/-- A stream that is all sentinels from cursor `i` on decodes to one zero per
remaining character. -/
theorem convertLoop_all_underscore (s : List Char) (i : Nat)
    (h : ∀ j (hj : j < s.length), i ≤ j → s.get ⟨j, hj⟩ = '_') :
    convertLoop s i = List.replicate (s.length - i) 0 := by
  rw [convertLoop]
  split
  case isTrue hi =>
    rw [if_pos (h i hi le_rfl)]
    rw [convertLoop_all_underscore s (i + 1) (fun j hj hij => h j hj (by omega))]
    have hlen : s.length - i = (s.length - (i + 1)) + 1 := by omega
    rw [hlen, List.replicate_succ]
  case isFalse hi =>
    rw [Nat.sub_eq_zero_of_le (by omega)]
    rfl
termination_by s.length - i
decreasing_by
  all_goals omega

/-- C3: the concrete decode equations of spec §8 hold, and a string of `N`
sentinels decodes to `N` zeros. -/
theorem concrete_decode_equations :
    convert [] = [] ∧ convert ['_'] = [0] ∧ convert ['a'] = [0] ∧
    convert ['a', 'a'] = [1] ∧ convert ['a', 'b'] = [2] ∧
    convert ['z', 'a'] = [0] ∧ convert ['z', 'z', 'a'] = [0] ∧
    ∀ N : Nat, convert (List.replicate N '_') = List.replicate N 0 := by
  refine ⟨?_, ?_, ?_, ?_, ?_, ?_, ?_, ?_⟩
  · simp [convert, convertLoop, pyStrip, pyLower, isSpaceChar]
  · simp [convert, convertLoop, parseElement, readValues, val, zloop, pyStrip,
      pyLower, isSpaceChar]
  · simp [convert, convertLoop, parseElement, readValues, val, zloop, pyStrip,
      pyLower, isSpaceChar]
  · simp [convert, convertLoop, parseElement, readValues, val, zloop, pyStrip,
      pyLower, isSpaceChar]
  · simp [convert, convertLoop, parseElement, readValues, val, zloop, pyStrip,
      pyLower, isSpaceChar]
  · simp [convert, convertLoop, parseElement, readValues, val, zloop, pyStrip,
      pyLower, isSpaceChar]
  · simp [convert, convertLoop, parseElement, readValues, val, zloop, pyStrip,
      pyLower, isSpaceChar]
  · intro N
    have hok : ∀ c ∈ List.replicate N '_', okChar c = true := by
      intro c hc
      rw [List.eq_of_mem_replicate hc]
      decide
    rw [convert_eq_convertLoop_of_ok _ hok]
    rw [convertLoop_all_underscore _ 0 (fun j hj _ => by
      simp [List.get_eq_getElem])]
    simp

/-- `_val` is non-negative on the intended alphabet. -/
theorem val_nonneg_ok (c : Char) (h : okChar c = true) : 0 ≤ val c := by
  unfold val
  split
  case isTrue => norm_num
  case isFalse hne =>
    simp only [okChar, Bool.or_eq_true, Bool.and_eq_true, decide_eq_true_eq] at h
    rcases h with ⟨h1, _⟩ | rfl
    · have h2 : 'a'.toNat ≤ c.toNat := h1
      omega
    · exact absurd rfl hne

/-- `_parse_element` returns a non-negative value on alphabet streams. -/
theorem parseElement_nonneg (s : List Char) (hok : ∀ c ∈ s, okChar c = true)
    (i : Nat) : 0 ≤ (parseElement s i).1 := by
  rw [parseElement]
  split
  case isTrue h =>
    split
    case isTrue hz => exact val_nonneg_ok _ (hok _ (List.get_mem s i h))
    case isFalse hz =>
      rw [zloop_eq]
      dsimp only
      split
      case isTrue h2 =>
        have hv := val_nonneg_ok _ (hok _ (List.get_mem s _ h2))
        have hr : (0 : Int) ≤ 26 * (zrunLen s i : Int) := by positivity
        omega
      case isFalse h2 =>
        have hr : (0 : Int) ≤ 26 * (zrunLen s i : Int) := by positivity
        omega
  case isFalse h => norm_num

/-- The inner value loop returns a non-negative sum on alphabet streams. -/
theorem readValues_nonneg (s : List Char) (hok : ∀ c ∈ s, okChar c = true)
    (remaining i : Nat) : 0 ≤ (readValues s remaining i).1 := by
  induction remaining generalizing i with
  | zero => simp [readValues]
  | succ r ih =>
    rw [readValues]
    split
    · dsimp only
      have h1 := parseElement_nonneg s hok i
      have h2 := ih (parseElement s i).2
      omega
    · norm_num

/-- Every package produced by the decoding loop on an alphabet stream is
non-negative. -/
theorem convertLoop_nonneg (s : List Char) (hok : ∀ c ∈ s, okChar c = true)
    (i : Nat) : ∀ x ∈ convertLoop s i, 0 ≤ x := by
  rw [convertLoop]
  split
  case isTrue h =>
    split
    · intro x hx
      rcases List.mem_cons.mp hx with rfl | hx
      · exact le_refl 0
      · exact convertLoop_nonneg s hok (i + 1) x hx
    · dsimp only
      split
      · intro x hx
        rcases List.mem_cons.mp hx with rfl | hx
        · exact le_refl 0
        · exact convertLoop_nonneg s hok (parseElement s i).2 x hx
      · intro x hx
        rcases List.mem_cons.mp hx with rfl | hx
        · exact readValues_nonneg s hok _ _
        · exact convertLoop_nonneg s hok
            (readValues s (parseElement s i).1.toNat (parseElement s i).2).2 x hx
  case isFalse h =>
    intro x hx
    simp at hx
termination_by s.length - i
decreasing_by
  all_goals
  { have h1 := parseElement_lt s i (by omega)
    have h2 := readValues_le s (parseElement s i).1.toNat (parseElement s i).2
    have h3 := readValues_le_length s (parseElement s i).1.toNat
      (parseElement s i).2 (parseElement_le_length s i (by omega))
    omega }

/-- C4: for every input string over `{a-z, _}`, `convert` returns an ordered
sequence of zero or more non-negative integers, one per decoded package. -/
theorem convert_nonneg (s : List Char) (h : ∀ c ∈ s, okChar c = true) :
    ∀ x ∈ convert s, 0 ≤ x := by
  rw [convert_eq_convertLoop_of_ok s h]
  exact convertLoop_nonneg s h 0

/-- Witness for C4 at the concrete input `"ab"`. -/
theorem convert_nonneg_witness :
    (∀ c ∈ ['a', 'b'], okChar c = true) ∧ ∀ x ∈ convert ['a', 'b'], 0 ≤ x :=
  ⟨by decide, convert_nonneg ['a', 'b'] (by decide)⟩

/-- Number of count-read scanner invocations performed by the decoding loop
from cursor `i` (the sentinel fast path reads no element). -/
def countReads (s : List Char) (i : Nat) : Nat :=
  if h : i < s.length then
    if s.get ⟨i, h⟩ = '_' then countReads s (i + 1)
    else
      let p := parseElement s i
      if p.1 = 0 then 1 + countReads s p.2
      else
        let q := readValues s p.1.toNat p.2
        1 + countReads s q.2
  else 0
termination_by s.length - i
decreasing_by
  all_goals
  { have h1 := parseElement_lt s i (by omega)
    have h2 := readValues_le s (parseElement s i).1.toNat (parseElement s i).2
    have h3 := readValues_le_length s (parseElement s i).1.toNat
      (parseElement s i).2 (parseElement_le_length s i (by omega))
    omega }

/-- The cursor value at the start of each iteration of the decoding loop,
followed by the final cursor value at loop exit. -/
def cursors (s : List Char) (i : Nat) : List Nat :=
  if h : i < s.length then
    if s.get ⟨i, h⟩ = '_' then i :: cursors s (i + 1)
    else
      let p := parseElement s i
      if p.1 = 0 then i :: cursors s p.2
      else
        let q := readValues s p.1.toNat p.2
        i :: cursors s q.2
  else [i]
termination_by s.length - i
decreasing_by
  all_goals
  { have h1 := parseElement_lt s i (by omega)
    have h2 := readValues_le s (parseElement s i).1.toNat (parseElement s i).2
    have h3 := readValues_le_length s (parseElement s i).1.toNat
      (parseElement s i).2 (parseElement_le_length s i (by omega))
    omega }

/-- The loop performs at most one count read per remaining character. -/
theorem countReads_le (s : List Char) (i : Nat) :
    countReads s i ≤ s.length - i := by
  rw [countReads]
  split
  case isTrue h =>
    split
    · have := countReads_le s (i + 1)
      omega
    · dsimp only
      have hp := parseElement_lt s i h
      have hpl := parseElement_le_length s i (by omega)
      split
      · have := countReads_le s (parseElement s i).2
        omega
      · have hq := readValues_le s (parseElement s i).1.toNat (parseElement s i).2
        have hql := readValues_le_length s (parseElement s i).1.toNat
          (parseElement s i).2 hpl
        have := countReads_le s
          (readValues s (parseElement s i).1.toNat (parseElement s i).2).2
        omega
  case isFalse h => omega
termination_by s.length - i
decreasing_by
  all_goals
  { have h1 := parseElement_lt s i (by omega)
    have h2 := readValues_le s (parseElement s i).1.toNat (parseElement s i).2
    have h3 := readValues_le_length s (parseElement s i).1.toNat
      (parseElement s i).2 (parseElement_le_length s i (by omega))
    omega }

/-- The cursor trace is never empty. -/
theorem cursors_ne_nil (s : List Char) (i : Nat) : cursors s i ≠ [] := by
  rw [cursors]
  split
  · split
    · simp
    · dsimp only
      split <;> simp
  · simp

/-- The cursor trace starts at the starting cursor. -/
theorem cursors_head (s : List Char) (i : Nat) :
    (cursors s i).head? = some i := by
  rw [cursors]
  split
  · split
    · rfl
    · dsimp only
      split <;> rfl
  · rfl

/-- The cursor trace ends exactly at the stream length. -/
theorem cursors_getLast (s : List Char) (i : Nat) (hi : i ≤ s.length) :
    (cursors s i).getLast? = some s.length := by
  rw [cursors]
  split
  case isTrue h =>
    have step : ∀ j : Nat, j ≤ s.length → cursors s j ≠ [] →
        (i :: cursors s j).getLast? = (cursors s j).getLast? := by
      intro j hj hne
      cases hc : cursors s j with
      | nil => exact absurd hc hne
      | cons b t => rw [List.getLast?_cons_cons]
    split
    · rw [step (i + 1) (by omega) (cursors_ne_nil s (i + 1)),
        cursors_getLast s (i + 1) (by omega)]
    · dsimp only
      have hpl := parseElement_le_length s i (by omega)
      split
      · rw [step (parseElement s i).2 hpl (cursors_ne_nil s _),
          cursors_getLast s (parseElement s i).2 hpl]
      · have hql := readValues_le_length s (parseElement s i).1.toNat
          (parseElement s i).2 hpl
        rw [step _ hql (cursors_ne_nil s _), cursors_getLast s _ hql]
  case isFalse h =>
    have : i = s.length := by omega
    rw [this]
    rfl
termination_by s.length - i
decreasing_by
  all_goals
  { have h1 := parseElement_lt s i (by omega)
    have h2 := readValues_le s (parseElement s i).1.toNat (parseElement s i).2
    have h3 := readValues_le_length s (parseElement s i).1.toNat
      (parseElement s i).2 (parseElement_le_length s i (by omega))
    omega }

/-- Along a run of the decoding loop the cursor is non-decreasing. -/
theorem cursors_chain (s : List Char) (i : Nat) :
    List.Chain' (· ≤ ·) (cursors s i) := by
  rw [cursors]
  split
  case isTrue h =>
    split
    · rw [List.chain'_cons']
      refine ⟨?_, cursors_chain s (i + 1)⟩
      intro b hb
      rw [cursors_head s (i + 1), Option.mem_some_iff] at hb
      omega
    · dsimp only
      have hp := parseElement_le s i
      split
      · rw [List.chain'_cons']
        refine ⟨?_, cursors_chain s (parseElement s i).2⟩
        intro b hb
        rw [cursors_head s (parseElement s i).2, Option.mem_some_iff] at hb
        omega
      · rw [List.chain'_cons']
        have hq := readValues_le s (parseElement s i).1.toNat (parseElement s i).2
        refine ⟨?_, cursors_chain s _⟩
        intro b hb
        rw [cursors_head s _, Option.mem_some_iff] at hb
        omega
  case isFalse h => simp
termination_by s.length - i
decreasing_by
  all_goals
  { have h1 := parseElement_lt s i (by omega)
    have h2 := readValues_le s (parseElement s i).1.toNat (parseElement s i).2
    have h3 := readValues_le_length s (parseElement s i).1.toNat
      (parseElement s i).2 (parseElement_le_length s i (by omega))
    omega }

/-- Along a run of the decoding loop the cursor never exceeds the stream
length. -/
theorem cursors_le_length (s : List Char) (i : Nat) (hi : i ≤ s.length) :
    ∀ j ∈ cursors s i, j ≤ s.length := by
  rw [cursors]
  split
  case isTrue h =>
    split
    · intro j hj
      rcases List.mem_cons.mp hj with rfl | hj
      · omega
      · exact cursors_le_length s (i + 1) (by omega) j hj
    · dsimp only
      have hpl := parseElement_le_length s i (by omega)
      split
      · intro j hj
        rcases List.mem_cons.mp hj with rfl | hj
        · omega
        · exact cursors_le_length s (parseElement s i).2 hpl j hj
      · intro j hj
        rcases List.mem_cons.mp hj with rfl | hj
        · omega
        · exact cursors_le_length s _ (readValues_le_length s
            (parseElement s i).1.toNat (parseElement s i).2 hpl) j hj
  case isFalse h =>
    intro j hj
    rcases List.mem_cons.mp hj with rfl | hj
    · omega
    · simp at hj
termination_by s.length - i
decreasing_by
  all_goals
  { have h1 := parseElement_lt s i (by omega)
    have h2 := readValues_le s (parseElement s i).1.toNat (parseElement s i).2
    have h3 := readValues_le_length s (parseElement s i).1.toNat
      (parseElement s i).2 (parseElement_le_length s i (by omega))
    omega }

/-- C5: for every input string the decoder loop terminates — the cursor trace
is finite and ends exactly at the stream length — and it performs at most
`length s` count-read scanner invocations, each count read strictly consuming
at least one character. -/
theorem convert_terminates_linear (s : List Char) :
    countReads s 0 ≤ s.length ∧
    (cursors s 0).getLast? = some s.length ∧
    ∀ i, i < s.length → i < (parseElement s i).2 := by
  refine ⟨?_, cursors_getLast s 0 (by omega), fun i hi => parseElement_lt s i hi⟩
  have := countReads_le s 0
  omega

/-- Witness for C5 at the concrete input `"ab"`. -/
theorem convert_terminates_linear_witness :
    countReads ['a', 'b'] 0 ≤ 2 ∧ 0 < (parseElement ['a', 'b'] 0).2 :=
  ⟨(convert_terminates_linear ['a', 'b']).1,
    (convert_terminates_linear ['a', 'b']).2.2 0 (by decide)⟩

/-- C6: cursor monotonicity — `_parse_element` never moves the cursor
backwards and never past the stream length, and along an entire run of the
decoding loop the cursor values are non-decreasing and bounded by the stream
length (the stream itself, a pure value, is never mutated). -/
theorem cursor_monotone (s : List Char) (i : Nat) (hi : i ≤ s.length) :
    (i ≤ (parseElement s i).2 ∧ (parseElement s i).2 ≤ s.length) ∧
    List.Chain' (· ≤ ·) (cursors s 0) ∧
    ∀ j ∈ cursors s 0, j ≤ s.length :=
  ⟨⟨parseElement_le s i, parseElement_le_length s i hi⟩,
    cursors_chain s 0, cursors_le_length s 0 (by omega)⟩

/-- Witness for C6 at the concrete input `"zza"`, cursor 1. -/
theorem cursor_monotone_witness :
    (1 ≤ (['z', 'z', 'a'] : List Char).length) ∧
    ((1 ≤ (parseElement ['z', 'z', 'a'] 1).2 ∧
        (parseElement ['z', 'z', 'a'] 1).2 ≤ (['z', 'z', 'a'] : List Char).length) ∧
      List.Chain' (· ≤ ·) (cursors ['z', 'z', 'a'] 0) ∧
      ∀ j ∈ cursors ['z', 'z', 'a'] 0, j ≤ (['z', 'z', 'a'] : List Char).length) :=
  ⟨by decide, cursor_monotone ['z', 'z', 'a'] 1 (by decide)⟩

/-- The decoding loop with the sentinel fast path removed: the sentinel flows
through the general count-read path. -/
def convertLoopNoFast (s : List Char) (i : Nat) : List Int :=
  if h : i < s.length then
    let p := parseElement s i
    if p.1 = 0 then 0 :: convertLoopNoFast s p.2
    else
      let q := readValues s p.1.toNat p.2
      q.1 :: convertLoopNoFast s q.2
  else []
termination_by s.length - i
decreasing_by
  all_goals
  { have h1 := parseElement_lt s i (by omega)
    have h2 := readValues_le s (parseElement s i).1.toNat (parseElement s i).2
    have h3 := readValues_le_length s (parseElement s i).1.toNat
      (parseElement s i).2 (parseElement_le_length s i (by omega))
    omega }

/-- `convert` without the sentinel fast path. -/
def convertNoFast (s : List Char) : List Int :=
  convertLoopNoFast ((pyStrip s).map pyLower) 0

/-- At a sentinel character, `_parse_element` yields value 0 and advances by
one — exactly what the fast path does. -/
theorem parseElement_at_underscore (s : List Char) (i : Nat)
    (h : i < s.length) (hu : s.get ⟨i, h⟩ = '_') :
    parseElement s i = (0, i + 1) := by
  rw [parseElement, dif_pos h, if_pos (by rw [hu]; decide), hu]
  simp [val]

/-- Removing the sentinel fast path does not change the decoding loop. -/
theorem convertLoop_eq_noFast (s : List Char) (i : Nat) :
    convertLoop s i = convertLoopNoFast s i := by
  rw [convertLoop, convertLoopNoFast]
  split
  case isTrue h =>
    by_cases hu : s.get ⟨i, h⟩ = '_'
    · rw [if_pos hu, parseElement_at_underscore s i h hu]
      dsimp only
      rw [if_pos rfl, convertLoop_eq_noFast s (i + 1)]
    · rw [if_neg hu]
      dsimp only
      split
      · rw [convertLoop_eq_noFast s (parseElement s i).2]
      · rw [convertLoop_eq_noFast s
          (readValues s (parseElement s i).1.toNat (parseElement s i).2).2]
  case isFalse h => rfl
termination_by s.length - i
decreasing_by
  all_goals
  { have h1 := parseElement_lt s i (by omega)
    have h2 := readValues_le s (parseElement s i).1.toNat (parseElement s i).2
    have h3 := readValues_le_length s (parseElement s i).1.toNat
      (parseElement s i).2 (parseElement_le_length s i (by omega))
    omega }

/-- C7: the sentinel fast path is redundant — on every string over the
alphabet `{a-z, _}`, `convert` with the explicit sentinel shortcut returns the
same output as the variant in which the sentinel flows through the general
count-read path. -/
theorem sentinel_fast_path_redundant (s : List Char)
    (_h : ∀ c ∈ s, okChar c = true) : convert s = convertNoFast s := by
  unfold convert convertNoFast
  rw [convertLoop_eq_noFast]

/-- Witness for C7 at the concrete input `"_a"`. -/
theorem sentinel_fast_path_redundant_witness :
    (∀ c ∈ ['_', 'a'], okChar c = true) ∧
      convert ['_', 'a'] = convertNoFast ['_', 'a'] :=
  ⟨by decide, sentinel_fast_path_redundant ['_', 'a'] (by decide)⟩

/-- Whether a run of the decoding loop from cursor `i` ever takes the
`count == 0` branch. -/
def zeroBranchHit (s : List Char) (i : Nat) : Bool :=
  if h : i < s.length then
    if s.get ⟨i, h⟩ = '_' then zeroBranchHit s (i + 1)
    else
      let p := parseElement s i
      if p.1 = 0 then true
      else
        let q := readValues s p.1.toNat p.2
        zeroBranchHit s q.2
  else false
termination_by s.length - i
decreasing_by
  all_goals
  { have h1 := parseElement_lt s i (by omega)
    have h2 := readValues_le s (parseElement s i).1.toNat (parseElement s i).2
    have h3 := readValues_le_length s (parseElement s i).1.toNat
      (parseElement s i).2 (parseElement_le_length s i (by omega))
    omega }

/-- On an alphabet stream, the count element read at a non-sentinel position
has value at least 1. -/
theorem parseElement_pos (s : List Char) (hok : ∀ c ∈ s, okChar c = true)
    (i : Nat) (h : i < s.length) (hu : s.get ⟨i, h⟩ ≠ '_') :
    1 ≤ (parseElement s i).1 := by
  rw [parseElement, dif_pos h]
  split
  case isTrue hz =>
    have hokc := hok _ (List.get_mem s i h)
    simp only [okChar, Bool.or_eq_true, Bool.and_eq_true, decide_eq_true_eq]
      at hokc
    rcases hokc with ⟨h1, _⟩ | heq
    · unfold val
      rw [if_neg hu]
      have h2 : 'a'.toNat ≤ (s.get ⟨i, h⟩).toNat := h1
      omega
    · exact absurd heq hu
  case isFalse hz =>
    rw [zloop_eq]
    dsimp only
    have hr : 1 ≤ zrunLen s i := by
      rw [zrunLen_succ s i h (not_not.mp hz)]
      omega
    split
    case isTrue h2 =>
      have hv := val_nonneg_ok _ (hok _ (List.get_mem s _ h2))
      omega
    case isFalse h2 => omega

/-- On an alphabet stream the `count == 0` branch is never taken. -/
theorem zeroBranchHit_false (s : List Char) (hok : ∀ c ∈ s, okChar c = true)
    (i : Nat) : zeroBranchHit s i = false := by
  rw [zeroBranchHit]
  split
  case isTrue h =>
    split
    case isTrue hu => exact zeroBranchHit_false s hok (i + 1)
    case isFalse hu =>
      dsimp only
      rw [if_neg (by have := parseElement_pos s hok i h hu; omega)]
      exact zeroBranchHit_false s hok
        (readValues s (parseElement s i).1.toNat (parseElement s i).2).2
  case isFalse h => rfl
termination_by s.length - i
decreasing_by
  all_goals
  { have h1 := parseElement_lt s i (by omega)
    have h2 := readValues_le s (parseElement s i).1.toNat (parseElement s i).2
    have h3 := readValues_le_length s (parseElement s i).1.toNat
      (parseElement s i).2 (parseElement_le_length s i (by omega))
    omega }

/-- C9: on every string over the alphabet `{a-z, _}`, the `count == 0` branch
of `convert` is unreachable, because any count element read at a non-sentinel
position has value at least 1; the branch does execute for some character
outside the intended alphabet (the character of code 96). -/
theorem zero_count_branch_unreachable (s : List Char)
    (h : ∀ c ∈ s, okChar c = true) :
    zeroBranchHit s 0 = false ∧
    (∀ i, ∀ hi : i < s.length, s.get ⟨i, hi⟩ ≠ '_' →
      1 ≤ (parseElement s i).1) ∧
    zeroBranchHit [Char.ofNat 96] 0 = true := by
  refine ⟨zeroBranchHit_false s h 0,
    fun i hi hu => parseElement_pos s h i hi hu, ?_⟩
  rw [zeroBranchHit]
  simp [parseElement, val, Char.ofNat]

/-- Witness for C9 at the concrete input `"a"`. -/
theorem zero_count_branch_unreachable_witness :
    (∀ c ∈ ['a'], okChar c = true) ∧ zeroBranchHit ['a'] 0 = false :=
  ⟨by decide, (zero_count_branch_unreachable ['a'] (by decide)).1⟩

/-- Counterexample for C10 as stated: the character of code 96 (one below
`'a'`) is not the sentinel, yet `_val` maps it to 0, not to a negative
value. -/
theorem below_a_char_with_nonnegative_val :
    Char.ofNat 96 ≠ '_' ∧ (Char.ofNat 96).toNat < 'a'.toNat ∧
    val (Char.ofNat 96) = 0 ∧ ¬ val (Char.ofNat 96) < 0 := by
  refine ⟨by decide, by decide, by decide, by decide⟩

/-- C10 (amended): the out-of-alphabet policy is ordinal coercion — for every
character other than the sentinel, `_val` returns `ord(c) - ord('a') + 1`;
every non-sentinel character whose code is more than one below `'a'` yields a
negative element value (code 96 itself yields 0), and `convert` can return
negative packages on input outside `{a-z, _}`: `convert "a0" = [-48]`. -/
theorem val_ordinal_coercion :
    (∀ c : Char, c ≠ '_' → val c = (c.toNat : Int) - ('a'.toNat : Int) + 1) ∧
    (∀ c : Char, c ≠ '_' → c.toNat + 1 < 'a'.toNat → val c < 0) ∧
    convert ['a', '0'] = [-48] := by
  refine ⟨?_, ?_, ?_⟩
  · intro c hc
    unfold val
    rw [if_neg hc]
  · intro c hc hlt
    unfold val
    rw [if_neg hc]
    omega
  · simp [convert, convertLoop, parseElement, readValues, val, zloop, pyStrip,
      pyLower, isSpaceChar]

/-- Witness for C10's amended theorem at the concrete character `'0'`. -/
theorem val_ordinal_coercion_witness :
    ('0' ≠ '_' ∧ '0'.toNat + 1 < 'a'.toNat) ∧
      val '0' = ('0'.toNat : Int) - ('a'.toNat : Int) + 1 ∧ val '0' < 0 :=
  ⟨⟨by decide, by decide⟩, val_ordinal_coercion.1 '0' (by decide),
    val_ordinal_coercion.2.1 '0' (by decide) (by decide)⟩

/-- `Char.ofNat` round-trips through `toNat` below the surrogate range. -/
theorem toNat_ofNat_lt (n : Nat) (h : n < 55296) : (Char.ofNat n).toNat = n := by
  have hv : n.isValidChar := Or.inl h
  simp [Char.ofNat, hv]
  rfl

/-- Characters of code at least 33 are not ASCII whitespace. -/
theorem isSpaceChar_eq_false_of_ge (c : Char) (h : 33 ≤ c.toNat) :
    isSpaceChar c = false := by
  by_contra hc
  have h2 : isSpaceChar c = true := by simpa using hc
  simp only [isSpaceChar, Bool.or_eq_true, decide_eq_true_eq] at h2
  rcases h2 with ((((rfl | rfl) | rfl) | rfl) | rfl) | rfl <;> revert h <;> decide

/-- Uppercasing leaves whitespace unchanged. -/
theorem pyUpper_space (c : Char) (h : isSpaceChar c = true) : pyUpper c = c := by
  simp only [isSpaceChar, Bool.or_eq_true, decide_eq_true_eq] at h
  unfold pyUpper
  rw [if_neg]
  rintro ⟨hA, _⟩
  rcases h with ((((rfl | rfl) | rfl) | rfl) | rfl) | rfl <;> revert hA <;> decide

/-- Mapping `pyUpper` leaves an all-whitespace list unchanged. -/
theorem map_pyUpper_space (l : List Char)
    (h : ∀ c ∈ l, isSpaceChar c = true) : l.map pyUpper = l := by
  induction l with
  | nil => rfl
  | cons a t ih =>
    rw [List.map_cons, pyUpper_space a (h a (by simp)),
      ih (fun c hc => h c (by simp [hc]))]

/-- Uppercasing an alphabet character and lowercasing again gives it back. -/
theorem pyLower_pyUpper_ok (c : Char) (h : okChar c = true) :
    pyLower (pyUpper c) = c := by
  simp only [okChar, Bool.or_eq_true, Bool.and_eq_true, decide_eq_true_eq] at h
  rcases h with ⟨h1, h2⟩ | rfl
  · have ha : 'a'.toNat ≤ c.toNat := h1
    have hz : c.toNat ≤ 'z'.toNat := h2
    have h97 : 'a'.toNat = 97 := rfl
    have h122 : 'z'.toNat = 122 := rfl
    unfold pyUpper
    rw [if_pos ⟨h1, h2⟩]
    have ht : (Char.ofNat (c.toNat - 32)).toNat = c.toNat - 32 :=
      toNat_ofNat_lt _ (by omega)
    unfold pyLower
    rw [if_pos ?cond]
    case cond =>
      refine ⟨?_, ?_⟩
      · show 'A'.toNat ≤ (Char.ofNat (c.toNat - 32)).toNat
        rw [ht]
        have hA : 'A'.toNat = 65 := rfl
        omega
      · show (Char.ofNat (c.toNat - 32)).toNat ≤ 'Z'.toNat
        rw [ht]
        have hZ : 'Z'.toNat = 90 := rfl
        omega
    rw [ht]
    have hsum : c.toNat - 32 + 32 = c.toNat := by omega
    rw [hsum, Char.ofNat_toNat]
  · rfl

/-- Alphabet characters uppercased are still not whitespace. -/
theorem pyUpper_ok_not_space (c : Char) (h : okChar c = true) :
    isSpaceChar (pyUpper c) = false := by
  apply isSpaceChar_eq_false_of_ge
  simp only [okChar, Bool.or_eq_true, Bool.and_eq_true, decide_eq_true_eq] at h
  rcases h with ⟨h1, h2⟩ | rfl
  · have ha : 'a'.toNat ≤ c.toNat := h1
    have hz : c.toNat ≤ 'z'.toNat := h2
    have h97 : 'a'.toNat = 97 := rfl
    have h122 : 'z'.toNat = 122 := rfl
    unfold pyUpper
    rw [if_pos ⟨h1, h2⟩, toNat_ofNat_lt _ (by omega)]
    omega
  · decide

/-- `dropWhile` skips a leading block on which the predicate holds. -/
theorem dropWhile_append_of_forall_pos (p : Char → Bool) (w r : List Char)
    (h : ∀ c ∈ w, p c = true) :
    (w ++ r).dropWhile p = r.dropWhile p := by
  induction w with
  | nil => rfl
  | cons a t ih =>
    rw [List.cons_append, List.dropWhile_cons, h a (by simp)]
    simpa using ih (fun c hc => h c (by simp [hc]))

/-- `dropWhile` empties a list on which the predicate always holds. -/
theorem dropWhile_eq_nil_of_forall_pos (p : Char → Bool) (w : List Char)
    (h : ∀ c ∈ w, p c = true) : w.dropWhile p = [] := by
  have h2 := dropWhile_append_of_forall_pos p w [] h
  simpa using h2

/-- Stripping removes exactly the whitespace wings around a whitespace-free
core. -/
theorem pyStrip_wings (w1 t w2 : List Char)
    (hw1 : ∀ c ∈ w1, isSpaceChar c = true)
    (hw2 : ∀ c ∈ w2, isSpaceChar c = true)
    (ht : ∀ c ∈ t, isSpaceChar c = false) :
    pyStrip (w1 ++ t ++ w2) = t := by
  unfold pyStrip
  rw [List.append_assoc, dropWhile_append_of_forall_pos _ w1 _ hw1]
  cases t with
  | nil =>
    simp only [List.nil_append]
    rw [dropWhile_eq_nil_of_forall_pos _ w2 hw2]
    rfl
  | cons a t' =>
    rw [List.cons_append, List.dropWhile_cons, ht a (by simp)]
    simp only [Bool.false_eq_true, if_false]
    rw [← List.cons_append, List.reverse_append]
    rw [dropWhile_append_of_forall_pos _ w2.reverse _
      (fun c hc => hw2 c (by simpa using hc))]
    cases hrev : (a :: t').reverse with
    | nil => exact absurd hrev (by simp)
    | cons b rest =>
      have hb : b ∈ a :: t' := by
        have hmem : b ∈ (a :: t').reverse := by rw [hrev]; simp
        rw [List.mem_reverse] at hmem
        exact hmem
      rw [List.dropWhile_cons, ht b hb]
      simp only [Bool.false_eq_true, if_false]
      rw [← hrev, List.reverse_reverse]

/-- Lowercasing undoes uppercasing on an all-alphabet list. -/
theorem map_pyLower_pyUpper_ok (l : List Char)
    (h : ∀ c ∈ l, okChar c = true) : (l.map pyUpper).map pyLower = l := by
  induction l with
  | nil => rfl
  | cons a t ih =>
    simp only [List.map_cons]
    rw [pyLower_pyUpper_ok a (h a (by simp)),
      ih (fun c hc => h c (by simp [hc]))]

/-- C8: case-insensitivity via normalization — for a string made of an
alphabet core over `{a-z, _}` with optional surrounding whitespace, `convert`
of the string equals `convert` of its uppercased form, and equals `convert`
of the string stripped of surrounding whitespace and lowercased, because
`convert` performs this normalization itself before decoding. -/
theorem convert_case_insensitive (w1 t w2 : List Char)
    (hw1 : ∀ c ∈ w1, isSpaceChar c = true)
    (hw2 : ∀ c ∈ w2, isSpaceChar c = true)
    (ht : ∀ c ∈ t, okChar c = true) :
    convert (w1 ++ t ++ w2) = convert ((w1 ++ t ++ w2).map pyUpper) ∧
    convert (w1 ++ t ++ w2) =
      convert ((pyStrip (w1 ++ t ++ w2)).map pyLower) := by
  have htns : ∀ c ∈ t, isSpaceChar c = false :=
    fun c hc => okChar_not_space c (ht c hc)
  have hL : convert (w1 ++ t ++ w2) = convertLoop t 0 := by
    unfold convert
    rw [pyStrip_wings w1 t w2 hw1 hw2 htns, map_pyLower_ok t ht]
  constructor
  · rw [hL]
    have hmap : (w1 ++ t ++ w2).map pyUpper = w1 ++ (t.map pyUpper) ++ w2 := by
      rw [List.map_append, List.map_append, map_pyUpper_space w1 hw1,
        map_pyUpper_space w2 hw2]
    rw [hmap]
    unfold convert
    rw [pyStrip_wings w1 (t.map pyUpper) w2 hw1 hw2 ?hupper]
    case hupper =>
      intro c hc
      rcases List.mem_map.mp hc with ⟨d, hd, rfl⟩
      exact pyUpper_ok_not_space d (ht d hd)
    rw [map_pyLower_pyUpper_ok t ht]
  · rw [hL, pyStrip_wings w1 t w2 hw1 hw2 htns, map_pyLower_ok t ht,
      convert_eq_convertLoop_of_ok t ht]

/-- Witness for C8 at the concrete input `" ab"`. -/
theorem convert_case_insensitive_witness :
    ((∀ c ∈ [' '], isSpaceChar c = true) ∧
      (∀ c ∈ ([] : List Char), isSpaceChar c = true) ∧
      (∀ c ∈ ['a', 'b'], okChar c = true)) ∧
    (convert ([' '] ++ ['a', 'b'] ++ []) =
        convert (([' '] ++ ['a', 'b'] ++ []).map pyUpper) ∧
      convert ([' '] ++ ['a', 'b'] ++ []) =
        convert ((pyStrip ([' '] ++ ['a', 'b'] ++ [])).map pyLower)) :=
  ⟨⟨by decide, by decide, by decide⟩,
    convert_case_insensitive [' '] ['a', 'b'] []
      (by decide) (by decide) (by decide)⟩
